import Mathlib

/-!
Shallow embedding of the Ewald routines of src/yaff/ewald.c (with the
scaling_row_type declaration of src/yaff/pes/pair_pot.h), over exact real
arithmetic.  Machine doubles are modelled as real numbers; the flat C arrays
pos[3*i+e], gvecs[3*r+e], vtens[3*a+b] are modelled as curried functions.
The minimum-image collaborator mic (mic.h, not part of this repository) is
passed as an explicit function argument, already specialised to the
rvecs/gvecs lattice of the call.
-/

namespace Yaff

noncomputable section

/-- Constant M_TWO_PI from constants.h: the value 2·π. -/
def M_TWO_PI : ℝ := 2 * Real.pi

/-- Constant M_SQRT_PI from constants.h: the value √π. -/
def M_SQRT_PI : ℝ := Real.sqrt Real.pi

/-- Constant M_TWO_DIV_SQRT_PI from constants.h: the value 2/√π. -/
def M_TWO_DIV_SQRT_PI : ℝ := 2 / Real.sqrt Real.pi

/-- The error function erf from math.h (libm): erf x = 2/√π · ∫ t in 0..x, exp (−t²). -/
def erf (x : ℝ) : ℝ := M_TWO_DIV_SQRT_PI * ∫ t in (0:ℝ)..x, Real.exp (-(t ^ 2))

/-- Dot product of two 3-vectors, written as the expanded three-term sum used in ewald.c. -/
def dot3 (a b : Fin 3 → ℝ) : ℝ := a 0 * b 0 + a 1 * b 1 + a 2 * b 2

/-- Index set of the triple loop of compute_ewald_reci (ewald.c lines 39-41): all integer
triples (j0, j1, j2) with −gmax d ≤ jd ≤ gmax d. -/
def ewaldTriples (gmax : Fin 3 → ℕ) : Finset (ℤ × ℤ × ℤ) :=
  Finset.Icc (-(gmax 0 : ℤ)) ((gmax 0 : ℤ)) ×ˢ Finset.Icc (-(gmax 1 : ℤ)) ((gmax 1 : ℤ)) ×ˢ
    Finset.Icc (-(gmax 2 : ℤ)) ((gmax 2 : ℤ))

/-- Wavevector of one loop iteration (ewald.c lines 43-45):
k[e] = M_TWO_PI·(j0·gvecs[e] + j1·gvecs[3+e] + j2·gvecs[6+e]); row r of gvecs is the
reciprocal lattice vector b_r. -/
def kvec (gvecs : Fin 3 → Fin 3 → ℝ) (j : ℤ × ℤ × ℤ) (e : Fin 3) : ℝ :=
  M_TWO_PI * (j.1 * gvecs 0 e + j.2.1 * gvecs 1 e + j.2.2 * gvecs 2 e)

/-- Structure-factor cosine accumulator of compute_ewald_reci (ewald.c lines 47-55):
cosfac = Σ_i charges[i]·cos(k·r_i). -/
def cosfac (pos : ℕ → Fin 3 → ℝ) (natom : ℕ) (charges : ℕ → ℝ) (k : Fin 3 → ℝ) : ℝ :=
  ∑ i ∈ Finset.range natom, charges i * Real.cos (dot3 k (pos i))

/-- Structure-factor sine accumulator of compute_ewald_reci (ewald.c lines 47-55):
sinfac = Σ_i charges[i]·sin(k·r_i). -/
def sinfac (pos : ℕ → Fin 3 → ℝ) (natom : ℕ) (charges : ℕ → ℝ) (k : Fin 3 → ℝ) : ℝ :=
  ∑ i ∈ Finset.range natom, charges i * Real.sin (dot3 k (pos i))

/-- Per-wavevector prefactor of compute_ewald_reci (ewald.c lines 37-38 and 60):
c = fac1·exp(−ksq·fac2)/ksq with fac1 = M_TWO_PI/volume, fac2 = 0.25/alpha/alpha and
ksq = k·k. -/
def reciC (volume alpha : ℝ) (k : Fin 3 → ℝ) : ℝ :=
  M_TWO_PI / volume * Real.exp (-(dot3 k k) * (0.25 / alpha / alpha)) / dot3 k k

/-- Return value of compute_ewald_reci (ewald.c lines 31-74): the energy accumulated over
all triples of the loop, where the triple (0,0,0) is skipped by the continue at line 42
and each remaining triple adds c·(cosfac·cosfac + sinfac·sinfac) (line 61). -/
def compute_ewald_reci (pos : ℕ → Fin 3 → ℝ) (natom : ℕ) (charges : ℕ → ℝ)
    (gvecs : Fin 3 → Fin 3 → ℝ) (volume alpha : ℝ) (gmax : Fin 3 → ℕ) : ℝ :=
  ∑ j ∈ ewaldTriples gmax,
    if j = (0, 0, 0) then 0
    else
      reciC volume alpha (kvec gvecs j) *
        (cosfac pos natom charges (kvec gvecs j) * cosfac pos natom charges (kvec gvecs j) +
          sinfac pos natom charges (kvec gvecs j) * sinfac pos natom charges (kvec gvecs j))

/-- Amount one triple j of the loop adds to gpos[3·i+e] (ewald.c lines 52-55 and 62-68):
k[e]·x with x = c·(cosfac·work[2i+1] + sinfac·work[2i]), where the workspace holds
work[2i] = 2·charges[i]·cos(k·r_i) and work[2i+1] = −2·charges[i]·sin(k·r_i); the skipped
triple (0,0,0) adds nothing. -/
def reci_gpos_contrib (pos : ℕ → Fin 3 → ℝ) (natom : ℕ) (charges : ℕ → ℝ)
    (gvecs : Fin 3 → Fin 3 → ℝ) (volume alpha : ℝ) (j : ℤ × ℤ × ℤ) (i : ℕ) (e : Fin 3) : ℝ :=
  if j = (0, 0, 0) then 0
  else
    kvec gvecs j e *
      (reciC volume alpha (kvec gvecs j) *
        (cosfac pos natom charges (kvec gvecs j) *
            (-2 * (charges i * Real.sin (dot3 (kvec gvecs j) (pos i)))) +
          sinfac pos natom charges (kvec gvecs j) *
            (2 * (charges i * Real.cos (dot3 (kvec gvecs j) (pos i))))))

/-- Final content of gpos[3·i+e] after compute_ewald_reci when a non-NULL gradient buffer
gpos is passed: the loop accumulates reci_gpos_contrib into the entries of atoms i < natom
(ewald.c lines 63-68) and touches no other entry. -/
def compute_ewald_reci_gpos (pos : ℕ → Fin 3 → ℝ) (natom : ℕ) (charges : ℕ → ℝ)
    (gvecs : Fin 3 → Fin 3 → ℝ) (volume alpha : ℝ) (gmax : Fin 3 → ℕ)
    (gpos : ℕ → Fin 3 → ℝ) (i : ℕ) (e : Fin 3) : ℝ :=
  if i < natom then
    gpos i e + ∑ j ∈ ewaldTriples gmax, reci_gpos_contrib pos natom charges gvecs volume alpha j i e
  else gpos i e

/-- Row of the per-atom scaling list: scaling_row_type of src/yaff/pes/pair_pot.h, holding
the neighbour index i and the scale factor. -/
structure scaling_row_type where
  i : ℕ
  scale : ℝ

/-- Minimum-image displacement delta between the center atom and atom other
(ewald.c lines 91-94): the raw difference of positions passed through the mic collaborator. -/
def corr_delta (pos : ℕ → Fin 3 → ℝ) (center other : ℕ)
    (mic : (Fin 3 → ℝ) → Fin 3 → ℝ) (e : Fin 3) : ℝ :=
  mic (fun a => pos center a - pos other a) e

/-- Distance d = sqrt(delta[0]·delta[0] + delta[1]·delta[1] + delta[2]·delta[2])
(ewald.c line 95). -/
def corr_d (pos : ℕ → Fin 3 → ℝ) (center other : ℕ) (mic : (Fin 3 → ℝ) → Fin 3 → ℝ) : ℝ :=
  Real.sqrt (corr_delta pos center other mic 0 * corr_delta pos center other mic 0 +
    corr_delta pos center other mic 1 * corr_delta pos center other mic 1 +
    corr_delta pos center other mic 2 * corr_delta pos center other mic 2)

/-- Direct-space potential pot = erf(alpha·d)/d of one scaling entry (ewald.c lines 96-97). -/
def corr_pot (pos : ℕ → Fin 3 → ℝ) (center other : ℕ) (mic : (Fin 3 → ℝ) → Fin 3 → ℝ)
    (alpha : ℝ) : ℝ :=
  erf (alpha * corr_d pos center other mic) / corr_d pos center other mic

/-- Pair factor fac = (1−scale)·charges[other]·charges[center] (ewald.c line 98). -/
def corr_fac (charges : ℕ → ℝ) (center other : ℕ) (scale : ℝ) : ℝ :=
  (1 - scale) * charges other * charges center

/-- Radial factor g = −fac·(M_TWO_DIV_SQRT_PI·alpha·exp(−x·x) − pot)/d/d with x = alpha·d
(ewald.c line 100), computed when gpos or vtens is requested. -/
def corr_g (pos : ℕ → Fin 3 → ℝ) (center other : ℕ) (charges : ℕ → ℝ)
    (mic : (Fin 3 → ℝ) → Fin 3 → ℝ) (alpha scale : ℝ) : ℝ :=
  -corr_fac charges center other scale *
      (M_TWO_DIV_SQRT_PI * alpha *
          Real.exp (-(alpha * corr_d pos center other mic * (alpha * corr_d pos center other mic))) -
        corr_pot pos center other mic alpha) /
    corr_d pos center other mic / corr_d pos center other mic

/-- Accumulator state threaded through the scaling loop of compute_ewald_corr: the running
energy and the optional caller-owned gradient and virial buffers (NULL modelled as none). -/
@[ext]
structure corr_state where
  energy : ℝ
  gpos : Option (ℕ → Fin 3 → ℝ)
  vtens : Option (Fin 3 → Fin 3 → ℝ)

/-- Body of one iteration of the scaling loop of compute_ewald_corr (ewald.c lines 87-120):
an entry with other_index ≥ center_index is skipped (line 90); otherwise the energy loses
fac·pot, the gradient buffer gains delta[e]·g on the center row and loses it on the other
row (lines 101-108), and the flat virial buffer gains delta[b]·delta[a]·g at vtens[3·a+b]
(lines 109-119). -/
def corr_step (pos : ℕ → Fin 3 → ℝ) (center : ℕ) (charges : ℕ → ℝ)
    (mic : (Fin 3 → ℝ) → Fin 3 → ℝ) (alpha : ℝ) (st : corr_state) (row : scaling_row_type) :
    corr_state :=
  if center ≤ row.i then st
  else
    { energy := st.energy -
        corr_fac charges center row.i row.scale * corr_pot pos center row.i mic alpha
      gpos := st.gpos.map fun gp a e =>
        if a = center then
          gp a e + corr_delta pos center row.i mic e * corr_g pos center row.i charges mic alpha row.scale
        else if a = row.i then
          gp a e - corr_delta pos center row.i mic e * corr_g pos center row.i charges mic alpha row.scale
        else gp a e
      vtens := st.vtens.map fun vt a b =>
        vt a b + corr_delta pos center row.i mic b * corr_delta pos center row.i mic a *
          corr_g pos center row.i charges mic alpha row.scale }

/-- The compute_ewald_corr routine (ewald.c lines 76-122): energy starts at zero, the
self-interaction correction alpha/√π·q_center² is subtracted once (line 84, no gpos or
vtens contribution), then the scaling loop runs; the returned state holds the returned
energy and the final contents of the optional gpos and vtens buffers. -/
def compute_ewald_corr (pos : ℕ → Fin 3 → ℝ) (center : ℕ) (charges : ℕ → ℝ)
    (mic : (Fin 3 → ℝ) → Fin 3 → ℝ) (alpha : ℝ) (scaling : List scaling_row_type)
    (gpos : Option (ℕ → Fin 3 → ℝ)) (vtens : Option (Fin 3 → Fin 3 → ℝ)) : corr_state :=
  scaling.foldl (corr_step pos center charges mic alpha)
    { energy := 0 - alpha / M_SQRT_PI * charges center * charges center
      gpos := gpos
      vtens := vtens }

/-- Net amount one scaling entry adds to the energy of compute_ewald_corr: zero for a
skipped entry, −fac·pot otherwise. -/
def corr_energy_contrib (pos : ℕ → Fin 3 → ℝ) (center : ℕ) (charges : ℕ → ℝ)
    (mic : (Fin 3 → ℝ) → Fin 3 → ℝ) (alpha : ℝ) (row : scaling_row_type) : ℝ :=
  if center ≤ row.i then 0
  else -(corr_fac charges center row.i row.scale * corr_pot pos center row.i mic alpha)

/-- Net amount one scaling entry adds to gradient buffer entry gpos[3·a+e] of
compute_ewald_corr: zero for a skipped entry, +delta[e]·g on the center row and
−delta[e]·g on the other row. -/
def corr_gpos_contrib (pos : ℕ → Fin 3 → ℝ) (center : ℕ) (charges : ℕ → ℝ)
    (mic : (Fin 3 → ℝ) → Fin 3 → ℝ) (alpha : ℝ) (row : scaling_row_type) (a : ℕ) (e : Fin 3) : ℝ :=
  if center ≤ row.i then 0
  else if a = center then
    corr_delta pos center row.i mic e * corr_g pos center row.i charges mic alpha row.scale
  else if a = row.i then
    -(corr_delta pos center row.i mic e * corr_g pos center row.i charges mic alpha row.scale)
  else 0

/-- Net amount one scaling entry adds to virial buffer entry vtens[3·a+b] of
compute_ewald_corr: zero for a skipped entry, delta[b]·delta[a]·g otherwise. -/
def corr_vtens_contrib (pos : ℕ → Fin 3 → ℝ) (center : ℕ) (charges : ℕ → ℝ)
    (mic : (Fin 3 → ℝ) → Fin 3 → ℝ) (alpha : ℝ) (row : scaling_row_type) (a b : Fin 3) : ℝ :=
  if center ≤ row.i then 0
  else
    corr_delta pos center row.i mic b * corr_delta pos center row.i mic a *
      corr_g pos center row.i charges mic alpha row.scale

/-- Position array equal to pos except that coordinate e of atom i is replaced by t; used
to state partial derivatives of the energies with respect to a single atomic coordinate. -/
def updatePos (pos : ℕ → Fin 3 → ℝ) (i : ℕ) (e : Fin 3) (t : ℝ) : ℕ → Fin 3 → ℝ :=
  fun a b => if a = i ∧ b = e then t else pos a b

theorem corr_step_energy (pos : ℕ → Fin 3 → ℝ) (center : ℕ) (charges : ℕ → ℝ)
    (mic : (Fin 3 → ℝ) → Fin 3 → ℝ) (alpha : ℝ) (st : corr_state) (row : scaling_row_type) :
    (corr_step pos center charges mic alpha st row).energy =
      st.energy + corr_energy_contrib pos center charges mic alpha row := by
  obtain ⟨E, gpo, vto⟩ := st
  by_cases h : center ≤ row.i
  · simp [corr_step, corr_energy_contrib, if_pos h]
  · simp [corr_step, corr_energy_contrib, if_neg h, sub_eq_add_neg]

theorem corr_step_gpos (pos : ℕ → Fin 3 → ℝ) (center : ℕ) (charges : ℕ → ℝ)
    (mic : (Fin 3 → ℝ) → Fin 3 → ℝ) (alpha : ℝ) (st : corr_state) (row : scaling_row_type) :
    (corr_step pos center charges mic alpha st row).gpos =
      st.gpos.map fun gp a e => gp a e + corr_gpos_contrib pos center charges mic alpha row a e := by
  obtain ⟨E, gpo, vto⟩ := st
  by_cases h : center ≤ row.i
  · simp only [corr_step, corr_gpos_contrib, if_pos h]
    cases gpo with
    | none => rfl
    | some gp => simp
  · simp only [corr_step, corr_gpos_contrib, if_neg h]
    cases gpo with
    | none => rfl
    | some gp =>
      simp only [Option.map_some']
      congr 1
      funext a e
      by_cases h1 : a = center
      · simp [h1]
      · by_cases h2 : a = row.i
        · have h3 : ¬row.i = center := fun hc => h (le_of_eq hc.symm)
          simp [h1, h2, h3, sub_eq_add_neg]
        · simp [h1, h2]

theorem corr_step_vtens (pos : ℕ → Fin 3 → ℝ) (center : ℕ) (charges : ℕ → ℝ)
    (mic : (Fin 3 → ℝ) → Fin 3 → ℝ) (alpha : ℝ) (st : corr_state) (row : scaling_row_type) :
    (corr_step pos center charges mic alpha st row).vtens =
      st.vtens.map fun vt a b => vt a b + corr_vtens_contrib pos center charges mic alpha row a b := by
  obtain ⟨E, gpo, vto⟩ := st
  by_cases h : center ≤ row.i
  · simp only [corr_step, corr_vtens_contrib, if_pos h]
    cases vto with
    | none => rfl
    | some vt => simp
  · simp only [corr_step, corr_vtens_contrib, if_neg h]

theorem corr_foldl_energy (pos : ℕ → Fin 3 → ℝ) (center : ℕ) (charges : ℕ → ℝ)
    (mic : (Fin 3 → ℝ) → Fin 3 → ℝ) (alpha : ℝ) (scaling : List scaling_row_type)
    (st : corr_state) :
    (scaling.foldl (corr_step pos center charges mic alpha) st).energy =
      st.energy + (scaling.map (corr_energy_contrib pos center charges mic alpha)).sum := by
  induction scaling generalizing st with
  | nil => simp
  | cons r l ih =>
    rw [List.foldl_cons, ih, corr_step_energy, List.map_cons, List.sum_cons]
    ring

theorem corr_foldl_gpos (pos : ℕ → Fin 3 → ℝ) (center : ℕ) (charges : ℕ → ℝ)
    (mic : (Fin 3 → ℝ) → Fin 3 → ℝ) (alpha : ℝ) (scaling : List scaling_row_type)
    (st : corr_state) :
    (scaling.foldl (corr_step pos center charges mic alpha) st).gpos =
      st.gpos.map fun gp a e =>
        gp a e + (scaling.map fun r => corr_gpos_contrib pos center charges mic alpha r a e).sum := by
  induction scaling generalizing st with
  | nil =>
    obtain ⟨E, gpo, vto⟩ := st
    cases gpo with
    | none => rfl
    | some gp => simp
  | cons r l ih =>
    rw [List.foldl_cons, ih, corr_step_gpos, Option.map_map]
    obtain ⟨E, gpo, vto⟩ := st
    cases gpo with
    | none => rfl
    | some gp =>
      simp only [Option.map_some', Function.comp_def, List.map_cons, List.sum_cons]
      congr 1
      funext a e
      rw [add_assoc]

theorem corr_foldl_vtens (pos : ℕ → Fin 3 → ℝ) (center : ℕ) (charges : ℕ → ℝ)
    (mic : (Fin 3 → ℝ) → Fin 3 → ℝ) (alpha : ℝ) (scaling : List scaling_row_type)
    (st : corr_state) :
    (scaling.foldl (corr_step pos center charges mic alpha) st).vtens =
      st.vtens.map fun vt a b =>
        vt a b + (scaling.map fun r => corr_vtens_contrib pos center charges mic alpha r a b).sum := by
  induction scaling generalizing st with
  | nil =>
    obtain ⟨E, gpo, vto⟩ := st
    cases vto with
    | none => rfl
    | some vt => simp
  | cons r l ih =>
    rw [List.foldl_cons, ih, corr_step_vtens, Option.map_map]
    obtain ⟨E, gpo, vto⟩ := st
    cases vto with
    | none => rfl
    | some vt =>
      simp only [Option.map_some', Function.comp_def, List.map_cons, List.sum_cons]
      congr 1
      funext a b
      rw [add_assoc]

theorem corr_energy_contrib_eq_filter (pos : ℕ → Fin 3 → ℝ) (center : ℕ) (charges : ℕ → ℝ)
    (mic : (Fin 3 → ℝ) → Fin 3 → ℝ) (alpha : ℝ) (scaling : List scaling_row_type) :
    (scaling.map (corr_energy_contrib pos center charges mic alpha)).sum =
      ((scaling.filter fun r => r.i < center).map fun r =>
        -((1 - r.scale) * charges center * charges r.i *
          (erf (alpha * corr_d pos center r.i mic) / corr_d pos center r.i mic))).sum := by
  induction scaling with
  | nil => rfl
  | cons r l ih =>
    by_cases hr : r.i < center
    · rw [List.map_cons, List.sum_cons, List.filter_cons, if_pos (by simpa using hr),
        List.map_cons, List.sum_cons, ih]
      congr 1
      rw [corr_energy_contrib, if_neg (not_le.mpr hr), corr_fac, corr_pot]
      ring
    · have hle : center ≤ r.i := not_lt.mp hr
      rw [List.map_cons, List.sum_cons, List.filter_cons, if_neg (by simpa using hr), ih,
        corr_energy_contrib, if_pos hle, zero_add]

/-- C2: the pairwise part of the energy returned by compute_ewald_corr is the sum over
exactly the scaling entries with other index strictly below the center index of
−(1−scale)·q_center·q_other·erf(α·d)/d, with d the length of the minimum-image
displacement; an entry with other index ≥ center index is skipped by the loop and leaves
the whole accumulator state (energy, gradient, virial) unchanged. -/
theorem C2_half_list_rule (pos : ℕ → Fin 3 → ℝ) (center : ℕ) (charges : ℕ → ℝ)
    (mic : (Fin 3 → ℝ) → Fin 3 → ℝ) (alpha : ℝ) (scaling : List scaling_row_type)
    (gpos : Option (ℕ → Fin 3 → ℝ)) (vtens : Option (Fin 3 → Fin 3 → ℝ)) :
    ((compute_ewald_corr pos center charges mic alpha scaling gpos vtens).energy -
        (0 - alpha / M_SQRT_PI * charges center * charges center) =
      ((scaling.filter fun r => r.i < center).map fun r =>
        -((1 - r.scale) * charges center * charges r.i *
          (erf (alpha * corr_d pos center r.i mic) / corr_d pos center r.i mic))).sum) ∧
      ∀ (st : corr_state) (r : scaling_row_type), center ≤ r.i →
        corr_step pos center charges mic alpha st r = st := by
  constructor
  · rw [compute_ewald_corr, corr_foldl_energy, corr_energy_contrib_eq_filter]
    ring
  · intro st r h
    rw [corr_step, if_pos h]

theorem C2_half_list_rule_witness :
    ((compute_ewald_corr (fun _ _ => 0) 1 (fun _ => 1) (fun v => v) 1 [⟨2, 0⟩] none none).energy -
        (0 - 1 / M_SQRT_PI * 1 * 1) =
      ((([⟨2, 0⟩] : List scaling_row_type).filter fun r => r.i < 1).map fun r =>
        -((1 - r.scale) * 1 *
          ((fun _ : ℕ => (1:ℝ)) r.i) *
          (erf (1 * corr_d (fun _ _ => 0) 1 r.i fun v => v) /
            corr_d (fun _ _ => 0) 1 r.i fun v => v))).sum) ∧
      corr_step (fun _ _ => 0) 1 (fun _ => 1) (fun v => v) 1
          ⟨0, none, none⟩ ⟨2, 0⟩ = ⟨0, none, none⟩ := by
  have h := C2_half_list_rule (fun _ _ => 0) 1 (fun _ => 1) (fun v => v) 1 [⟨2, 0⟩] none none
  exact ⟨h.1, h.2 ⟨0, none, none⟩ ⟨2, 0⟩ (by decide)⟩

/-- C4: the self term contributes exactly −α/√π·q_center² to the energy, once per call and
independently of the scaling list, and contributes nothing to the gradient or virial
buffers; with an empty scaling list the call returns exactly −α/√π·q_center² and leaves
both buffers unchanged. -/
theorem C4_self_term (pos : ℕ → Fin 3 → ℝ) (center : ℕ) (charges : ℕ → ℝ)
    (mic : (Fin 3 → ℝ) → Fin 3 → ℝ) (alpha : ℝ) (scaling : List scaling_row_type)
    (gpos : Option (ℕ → Fin 3 → ℝ)) (vtens : Option (Fin 3 → Fin 3 → ℝ)) :
    ((compute_ewald_corr pos center charges mic alpha scaling gpos vtens).energy =
        -(alpha / M_SQRT_PI * charges center ^ 2) +
          (scaling.map (corr_energy_contrib pos center charges mic alpha)).sum) ∧
      compute_ewald_corr pos center charges mic alpha [] gpos vtens =
        { energy := -(alpha / M_SQRT_PI * charges center ^ 2)
          gpos := gpos
          vtens := vtens } := by
  constructor
  · rw [compute_ewald_corr, corr_foldl_energy]
    ring_nf
  · have h : (0:ℝ) - alpha / M_SQRT_PI * charges center * charges center =
        -(alpha / M_SQRT_PI * charges center ^ 2) := by ring
    rw [compute_ewald_corr, List.foldl_nil, h]

/-- C5: for every contributing scaling entry (other index < center index), the 3-vector the
loop body adds to the center atom's gradient row is the exact negation of the 3-vector it
adds to the other atom's gradient row. -/
theorem C5_newton_third_law (pos : ℕ → Fin 3 → ℝ) (center : ℕ) (charges : ℕ → ℝ)
    (mic : (Fin 3 → ℝ) → Fin 3 → ℝ) (alpha : ℝ) (E : ℝ) (gp : ℕ → Fin 3 → ℝ)
    (vt : Option (Fin 3 → Fin 3 → ℝ)) (r : scaling_row_type) (h : r.i < center) :
    ((corr_step pos center charges mic alpha ⟨E, some gp, vt⟩ r).gpos =
        some fun a e => gp a e + corr_gpos_contrib pos center charges mic alpha r a e) ∧
      ∀ e : Fin 3, corr_gpos_contrib pos center charges mic alpha r center e =
        -corr_gpos_contrib pos center charges mic alpha r r.i e := by
  have hn : ¬center ≤ r.i := not_le.mpr h
  have hne : ¬r.i = center := fun hc => hn (le_of_eq hc.symm)
  constructor
  · rw [corr_step_gpos]
    rfl
  · intro e
    simp [corr_gpos_contrib, hn, hne]

theorem C5_newton_third_law_witness :
    ((corr_step (fun _ _ => 0) 1 (fun _ => 1) (fun v => v) 1 ⟨0, some fun _ _ => 0, none⟩
          ⟨0, 0⟩).gpos =
        some fun a e => (fun _ _ => (0:ℝ)) a e +
          corr_gpos_contrib (fun _ _ => 0) 1 (fun _ => 1) (fun v => v) 1 ⟨0, 0⟩ a e) ∧
      ∀ e : Fin 3,
        corr_gpos_contrib (fun _ _ => 0) 1 (fun _ => 1) (fun v => v) 1 ⟨0, 0⟩ 1 e =
          -corr_gpos_contrib (fun _ _ => 0) 1 (fun _ => 1) (fun v => v) 1 ⟨0, 0⟩
            (⟨0, 0⟩ : scaling_row_type).i e :=
  C5_newton_third_law (fun _ _ => 0) 1 (fun _ => 1) (fun v => v) 1 0 (fun _ _ => 0) none
    ⟨0, 0⟩ (by decide)

/-- C7: with scale = 1 on every scaling entry, compute_ewald_corr contributes zero energy
beyond the self term and adds exactly zero to every gradient component and every virial
entry: the returned state is the self-term energy with both buffers unchanged. -/
theorem C7_scale_one (pos : ℕ → Fin 3 → ℝ) (center : ℕ) (charges : ℕ → ℝ)
    (mic : (Fin 3 → ℝ) → Fin 3 → ℝ) (alpha : ℝ) (scaling : List scaling_row_type)
    (gpos : Option (ℕ → Fin 3 → ℝ)) (vtens : Option (Fin 3 → Fin 3 → ℝ))
    (h : ∀ r ∈ scaling, r.scale = 1) :
    compute_ewald_corr pos center charges mic alpha scaling gpos vtens =
      { energy := 0 - alpha / M_SQRT_PI * charges center * charges center
        gpos := gpos
        vtens := vtens } := by
  have hfac : ∀ r ∈ scaling, corr_fac charges center r.i r.scale = 0 := by
    intro r hr
    rw [corr_fac, h r hr]
    ring
  have hg : ∀ r ∈ scaling, corr_g pos center r.i charges mic alpha r.scale = 0 := by
    intro r hr
    rw [corr_g, hfac r hr]
    ring
  have hE : ∀ r ∈ scaling, corr_energy_contrib pos center charges mic alpha r = 0 := by
    intro r hr
    rw [corr_energy_contrib]
    split
    · rfl
    · rw [hfac r hr]
      ring
  have hGP : ∀ r ∈ scaling, ∀ (a : ℕ) (e : Fin 3),
      corr_gpos_contrib pos center charges mic alpha r a e = 0 := by
    intro r hr a e
    rw [corr_gpos_contrib]
    split
    · rfl
    · rw [hg r hr]
      split
      · ring
      · split
        · ring
        · rfl
  have hVT : ∀ r ∈ scaling, ∀ a b : Fin 3,
      corr_vtens_contrib pos center charges mic alpha r a b = 0 := by
    intro r hr a b
    rw [corr_vtens_contrib]
    split
    · rfl
    · rw [hg r hr]
      ring
  apply corr_state.ext
  · rw [compute_ewald_corr, corr_foldl_energy]
    have hz : (scaling.map (corr_energy_contrib pos center charges mic alpha)).sum = 0 := by
      apply List.sum_eq_zero
      intro x hx
      obtain ⟨r, hr, rfl⟩ := List.mem_map.mp hx
      exact hE r hr
    rw [hz, add_zero]
  · rw [compute_ewald_corr, corr_foldl_gpos]
    cases gpos with
    | none => rfl
    | some gp =>
      simp only [Option.map_some']
      congr 1
      funext a e
      have hz : (scaling.map fun r =>
          corr_gpos_contrib pos center charges mic alpha r a e).sum = 0 := by
        apply List.sum_eq_zero
        intro x hx
        obtain ⟨r, hr, rfl⟩ := List.mem_map.mp hx
        exact hGP r hr a e
      rw [hz, add_zero]
  · rw [compute_ewald_corr, corr_foldl_vtens]
    cases vtens with
    | none => rfl
    | some vt =>
      simp only [Option.map_some']
      congr 1
      funext a b
      have hz : (scaling.map fun r =>
          corr_vtens_contrib pos center charges mic alpha r a b).sum = 0 := by
        apply List.sum_eq_zero
        intro x hx
        obtain ⟨r, hr, rfl⟩ := List.mem_map.mp hx
        exact hVT r hr a b
      rw [hz, add_zero]

theorem C7_scale_one_witness :
    compute_ewald_corr (fun _ _ => 0) 1 (fun _ => 1) (fun v => v) 1
        [⟨0, 1⟩] (some fun _ _ => 0) (some fun _ _ => 0) =
      { energy := 0 - 1 / M_SQRT_PI * 1 * 1
        gpos := some fun _ _ => 0
        vtens := some fun _ _ => 0 } :=
  C7_scale_one (fun _ _ => 0) 1 (fun _ => 1) (fun v => v) 1 [⟨0, 1⟩]
    (some fun _ _ => 0) (some fun _ _ => 0)
    (by intro r hr; rw [List.mem_singleton] at hr; rw [hr])

/-- C9: a contributing scaling entry adds Δ_a·Δ_b·g to virial entry (a,b), the amount added
at (a,b) equals the amount added at (b,a), and consequently a virial tensor that is
symmetric before the call is symmetric after the call. -/
theorem C9_virial_symmetric (pos : ℕ → Fin 3 → ℝ) (center : ℕ) (charges : ℕ → ℝ)
    (mic : (Fin 3 → ℝ) → Fin 3 → ℝ) (alpha : ℝ) (scaling : List scaling_row_type)
    (E : ℝ) (gpo : Option (ℕ → Fin 3 → ℝ)) (vt : Fin 3 → Fin 3 → ℝ) (r : scaling_row_type)
    (h : r.i < center) (hsym : ∀ a b : Fin 3, vt a b = vt b a) :
    ((corr_step pos center charges mic alpha ⟨E, gpo, some vt⟩ r).vtens =
        some fun a b => vt a b +
          corr_delta pos center r.i mic a * corr_delta pos center r.i mic b *
            corr_g pos center r.i charges mic alpha r.scale) ∧
      (∀ a b : Fin 3, corr_vtens_contrib pos center charges mic alpha r a b =
        corr_vtens_contrib pos center charges mic alpha r b a) ∧
      ∀ a b : Fin 3,
        ((compute_ewald_corr pos center charges mic alpha scaling gpo (some vt)).vtens.getD vt) a b =
          ((compute_ewald_corr pos center charges mic alpha scaling gpo (some vt)).vtens.getD vt) b a := by
  have hcsym : ∀ (r' : scaling_row_type) (a b : Fin 3),
      corr_vtens_contrib pos center charges mic alpha r' a b =
        corr_vtens_contrib pos center charges mic alpha r' b a := by
    intro r' a b
    rw [corr_vtens_contrib, corr_vtens_contrib]
    split
    · rfl
    · ring
  refine ⟨?_, hcsym r, ?_⟩
  · rw [corr_step_vtens]
    simp only [Option.map_some']
    congr 1
    funext a b
    rw [corr_vtens_contrib, if_neg (not_le.mpr h)]
    ring
  · intro a b
    rw [compute_ewald_corr, corr_foldl_vtens]
    simp only [Option.map_some', Option.getD_some]
    have hmap : (scaling.map fun r' => corr_vtens_contrib pos center charges mic alpha r' a b) =
        scaling.map fun r' => corr_vtens_contrib pos center charges mic alpha r' b a := by
      apply List.map_congr_left
      intro r' _
      exact hcsym r' a b
    rw [hsym a b, hmap]

theorem C9_virial_symmetric_witness :
    ((corr_step (fun _ _ => 0) 1 (fun _ => 1) (fun v => v) 1 ⟨0, none, some fun _ _ => 0⟩
          ⟨0, 0⟩).vtens =
        some fun a b => (fun _ _ => (0:ℝ)) a b +
          corr_delta (fun _ _ => 0) 1 (⟨0, 0⟩ : scaling_row_type).i (fun v => v) a *
            corr_delta (fun _ _ => 0) 1 (⟨0, 0⟩ : scaling_row_type).i (fun v => v) b *
            corr_g (fun _ _ => 0) 1 (⟨0, 0⟩ : scaling_row_type).i (fun _ => 1) (fun v => v) 1
              (⟨0, 0⟩ : scaling_row_type).scale) ∧
      (∀ a b : Fin 3,
        corr_vtens_contrib (fun _ _ => 0) 1 (fun _ => 1) (fun v => v) 1 ⟨0, 0⟩ a b =
          corr_vtens_contrib (fun _ _ => 0) 1 (fun _ => 1) (fun v => v) 1 ⟨0, 0⟩ b a) ∧
      ∀ a b : Fin 3,
        ((compute_ewald_corr (fun _ _ => 0) 1 (fun _ => 1) (fun v => v) 1 [] none
              (some fun _ _ => 0)).vtens.getD (fun _ _ => 0)) a b =
          ((compute_ewald_corr (fun _ _ => 0) 1 (fun _ => 1) (fun v => v) 1 [] none
              (some fun _ _ => 0)).vtens.getD (fun _ _ => 0)) b a :=
  C9_virial_symmetric (fun _ _ => 0) 1 (fun _ => 1) (fun v => v) 1 [] 0 none
    (fun _ _ => 0) ⟨0, 0⟩ (by decide) (fun _ _ => rfl)

theorem reci_gpos_contrib_sum_atoms (pos : ℕ → Fin 3 → ℝ) (natom : ℕ) (charges : ℕ → ℝ)
    (gvecs : Fin 3 → Fin 3 → ℝ) (volume alpha : ℝ) (j : ℤ × ℤ × ℤ) (e : Fin 3) :
    ∑ i ∈ Finset.range natom,
      reci_gpos_contrib pos natom charges gvecs volume alpha j i e = 0 := by
  by_cases hj : j = (0, 0, 0)
  · simp [reci_gpos_contrib, hj]
  · simp only [reci_gpos_contrib, if_neg hj]
    have expand : ∀ i : ℕ,
        kvec gvecs j e *
          (reciC volume alpha (kvec gvecs j) *
            (cosfac pos natom charges (kvec gvecs j) *
                (-2 * (charges i * Real.sin (dot3 (kvec gvecs j) (pos i)))) +
              sinfac pos natom charges (kvec gvecs j) *
                (2 * (charges i * Real.cos (dot3 (kvec gvecs j) (pos i)))))) =
          (-2 * kvec gvecs j e * reciC volume alpha (kvec gvecs j) *
              cosfac pos natom charges (kvec gvecs j)) *
              (charges i * Real.sin (dot3 (kvec gvecs j) (pos i))) +
            (2 * kvec gvecs j e * reciC volume alpha (kvec gvecs j) *
              sinfac pos natom charges (kvec gvecs j)) *
              (charges i * Real.cos (dot3 (kvec gvecs j) (pos i))) := by
      intro i
      ring
    rw [Finset.sum_congr rfl fun i _ => expand i, Finset.sum_add_distrib,
      ← Finset.mul_sum, ← Finset.mul_sum]
    have hs : ∑ i ∈ Finset.range natom,
        charges i * Real.sin (dot3 (kvec gvecs j) (pos i)) =
        sinfac pos natom charges (kvec gvecs j) := rfl
    have hc : ∑ i ∈ Finset.range natom,
        charges i * Real.cos (dot3 (kvec gvecs j) (pos i)) =
        cosfac pos natom charges (kvec gvecs j) := rfl
    rw [hs, hc]
    ring

/-- C10: for every wavevector triple j of the loop, the gradient contributions
compute_ewald_reci adds for that triple sum to exactly zero over the atoms, along each
axis; consequently the total gradient the whole call accumulates into the buffer sums to
zero along each axis. -/
theorem C10_reci_gradient_sums_to_zero (pos : ℕ → Fin 3 → ℝ) (natom : ℕ) (charges : ℕ → ℝ)
    (gvecs : Fin 3 → Fin 3 → ℝ) (volume alpha : ℝ) (gmax : Fin 3 → ℕ) (gp : ℕ → Fin 3 → ℝ) :
    (∀ (j : ℤ × ℤ × ℤ) (e : Fin 3),
        ∑ i ∈ Finset.range natom,
          reci_gpos_contrib pos natom charges gvecs volume alpha j i e = 0) ∧
      ∀ e : Fin 3,
        ∑ i ∈ Finset.range natom,
          (compute_ewald_reci_gpos pos natom charges gvecs volume alpha gmax gp i e -
            gp i e) = 0 := by
  refine ⟨fun j e => reci_gpos_contrib_sum_atoms pos natom charges gvecs volume alpha j e, ?_⟩
  intro e
  have hterm : ∀ i ∈ Finset.range natom,
      compute_ewald_reci_gpos pos natom charges gvecs volume alpha gmax gp i e - gp i e =
        ∑ j ∈ ewaldTriples gmax,
          reci_gpos_contrib pos natom charges gvecs volume alpha j i e := by
    intro i hi
    rw [compute_ewald_reci_gpos, if_pos (Finset.mem_range.mp hi)]
    ring
  rw [Finset.sum_congr rfl hterm, Finset.sum_comm]
  exact Finset.sum_eq_zero fun j _ =>
    reci_gpos_contrib_sum_atoms pos natom charges gvecs volume alpha j e

theorem zero_triple_mem_ewaldTriples (gmax : Fin 3 → ℕ) :
    ((0, 0, 0) : ℤ × ℤ × ℤ) ∈ ewaldTriples gmax := by
  simp only [ewaldTriples, Finset.mem_product, Finset.mem_Icc]
  refine ⟨⟨?_, ?_⟩, ⟨?_, ?_⟩, ⟨?_, ?_⟩⟩ <;> simp

/-- C1: the reciprocal-space energy returned by compute_ewald_reci equals the sum, over
all integer triples with |jd| ≤ gmax d other than (0,0,0), of
(2π/V)·exp(−ksq/(4α²))/ksq·(cosfac² + sinfac²) with k = 2π·(j0·b0 + j1·b1 + j2·b2),
ksq = k·k, cosfac = Σ_i q_i·cos(k·r_i) and sinfac = Σ_i q_i·sin(k·r_i); the zero triple
contributes nothing. -/
theorem C1_reci_energy_formula (pos : ℕ → Fin 3 → ℝ) (natom : ℕ) (charges : ℕ → ℝ)
    (gvecs : Fin 3 → Fin 3 → ℝ) (volume alpha : ℝ) (gmax : Fin 3 → ℕ)
    (hV : 0 < volume) (hα : 0 < alpha) :
    compute_ewald_reci pos natom charges gvecs volume alpha gmax =
      ∑ j ∈ (ewaldTriples gmax).erase (0, 0, 0),
        2 * Real.pi / volume *
            Real.exp (-(dot3 (kvec gvecs j) (kvec gvecs j)) / (4 * alpha ^ 2)) /
            dot3 (kvec gvecs j) (kvec gvecs j) *
          (cosfac pos natom charges (kvec gvecs j) ^ 2 +
            sinfac pos natom charges (kvec gvecs j) ^ 2) := by
  rw [compute_ewald_reci,
    ← Finset.sum_erase_add _ _ (zero_triple_mem_ewaldTriples gmax), if_pos rfl, add_zero]
  refine Finset.sum_congr rfl fun j hj => ?_
  rw [if_neg (Finset.mem_erase.mp hj).1, reciC, M_TWO_PI]
  have hα0 : alpha ≠ 0 := ne_of_gt hα
  have harg : -(dot3 (kvec gvecs j) (kvec gvecs j)) * (0.25 / alpha / alpha) =
      -(dot3 (kvec gvecs j) (kvec gvecs j)) / (4 * alpha ^ 2) := by
    field_simp
    ring
  rw [harg]
  ring

theorem C1_reci_energy_formula_witness :
    0 < (1:ℝ) ∧
      compute_ewald_reci (fun _ _ => 0) 1 (fun _ => 1) (fun _ _ => 0) 1 1 (fun _ => 1) =
        ∑ j ∈ (ewaldTriples fun _ => 1).erase (0, 0, 0),
          2 * Real.pi / 1 *
              Real.exp (-(dot3 (kvec (fun _ _ => 0) j) (kvec (fun _ _ => 0) j)) / (4 * 1 ^ 2)) /
              dot3 (kvec (fun _ _ => 0) j) (kvec (fun _ _ => 0) j) *
            (cosfac (fun _ _ => 0) 1 (fun _ => 1) (kvec (fun _ _ => 0) j) ^ 2 +
              sinfac (fun _ _ => 0) 1 (fun _ => 1) (kvec (fun _ _ => 0) j) ^ 2) :=
  ⟨one_pos,
    C1_reci_energy_formula (fun _ _ => 0) 1 (fun _ => 1) (fun _ _ => 0) 1 1 (fun _ => 1)
      one_pos one_pos⟩

theorem cosfac_translate (pos : ℕ → Fin 3 → ℝ) (natom : ℕ) (charges : ℕ → ℝ)
    (k t : Fin 3 → ℝ) :
    cosfac (fun a e => pos a e + t e) natom charges k =
      cosfac pos natom charges k * Real.cos (dot3 k t) -
        sinfac pos natom charges k * Real.sin (dot3 k t) := by
  simp only [cosfac, sinfac]
  rw [Finset.sum_mul, Finset.sum_mul, ← Finset.sum_sub_distrib]
  refine Finset.sum_congr rfl fun i _ => ?_
  have hd : dot3 k (fun e => pos i e + t e) = dot3 k (pos i) + dot3 k t := by
    simp only [dot3]
    ring
  rw [hd, Real.cos_add]
  ring

theorem sinfac_translate (pos : ℕ → Fin 3 → ℝ) (natom : ℕ) (charges : ℕ → ℝ)
    (k t : Fin 3 → ℝ) :
    sinfac (fun a e => pos a e + t e) natom charges k =
      sinfac pos natom charges k * Real.cos (dot3 k t) +
        cosfac pos natom charges k * Real.sin (dot3 k t) := by
  simp only [cosfac, sinfac]
  rw [Finset.sum_mul, Finset.sum_mul, ← Finset.sum_add_distrib]
  refine Finset.sum_congr rfl fun i _ => ?_
  have hd : dot3 k (fun e => pos i e + t e) = dot3 k (pos i) + dot3 k t := by
    simp only [dot3]
    ring
  rw [hd, Real.sin_add]
  ring

theorem cosfac_perm (pos : ℕ → Fin 3 → ℝ) (natom : ℕ) (charges : ℕ → ℝ) (k : Fin 3 → ℝ)
    (σ : Equiv.Perm ℕ) (hσ : ∀ i, σ i < natom ↔ i < natom) :
    cosfac (fun a => pos (σ a)) natom (fun a => charges (σ a)) k =
      cosfac pos natom charges k := by
  simp only [cosfac]
  refine Finset.sum_nbij' (fun a => σ a) (fun a => σ.symm a) ?_ ?_ ?_ ?_ ?_
  · intro a ha
    rw [Finset.mem_range] at ha ⊢
    exact (hσ a).mpr ha
  · intro a ha
    rw [Finset.mem_range] at ha ⊢
    have := hσ (σ.symm a)
    rw [Equiv.apply_symm_apply] at this
    exact this.mp ha
  · intro a _
    exact σ.symm_apply_apply a
  · intro a _
    exact σ.apply_symm_apply a
  · intro a _
    rfl

theorem sinfac_perm (pos : ℕ → Fin 3 → ℝ) (natom : ℕ) (charges : ℕ → ℝ) (k : Fin 3 → ℝ)
    (σ : Equiv.Perm ℕ) (hσ : ∀ i, σ i < natom ↔ i < natom) :
    sinfac (fun a => pos (σ a)) natom (fun a => charges (σ a)) k =
      sinfac pos natom charges k := by
  simp only [sinfac]
  refine Finset.sum_nbij' (fun a => σ a) (fun a => σ.symm a) ?_ ?_ ?_ ?_ ?_
  · intro a ha
    rw [Finset.mem_range] at ha ⊢
    exact (hσ a).mpr ha
  · intro a ha
    rw [Finset.mem_range] at ha ⊢
    have := hσ (σ.symm a)
    rw [Equiv.apply_symm_apply] at this
    exact this.mp ha
  · intro a _
    exact σ.symm_apply_apply a
  · intro a _
    exact σ.apply_symm_apply a
  · intro a _
    rfl

/-- C6: the energy of compute_ewald_reci is unchanged when the same translation vector is
added to every atomic position, and unchanged when positions and charges are permuted by
the same permutation of atom indices (one that maps the first natom indices onto
themselves), all other arguments held fixed. -/
theorem C6_reci_invariance (pos : ℕ → Fin 3 → ℝ) (natom : ℕ) (charges : ℕ → ℝ)
    (gvecs : Fin 3 → Fin 3 → ℝ) (volume alpha : ℝ) (gmax : Fin 3 → ℕ) (t : Fin 3 → ℝ)
    (σ : Equiv.Perm ℕ) (hσ : ∀ i, σ i < natom ↔ i < natom) :
    (compute_ewald_reci (fun a e => pos a e + t e) natom charges gvecs volume alpha gmax =
        compute_ewald_reci pos natom charges gvecs volume alpha gmax) ∧
      compute_ewald_reci (fun a => pos (σ a)) natom (fun a => charges (σ a)) gvecs volume
          alpha gmax =
        compute_ewald_reci pos natom charges gvecs volume alpha gmax := by
  constructor
  · rw [compute_ewald_reci, compute_ewald_reci]
    refine Finset.sum_congr rfl fun j _ => ?_
    by_cases hj : j = (0, 0, 0)
    · rw [if_pos hj, if_pos hj]
    · rw [if_neg hj, if_neg hj, cosfac_translate, sinfac_translate]
      have key := Real.sin_sq_add_cos_sq (dot3 (kvec gvecs j) t)
      linear_combination
        (reciC volume alpha (kvec gvecs j) *
          (cosfac pos natom charges (kvec gvecs j) ^ 2 +
            sinfac pos natom charges (kvec gvecs j) ^ 2)) * key
  · rw [compute_ewald_reci, compute_ewald_reci]
    refine Finset.sum_congr rfl fun j _ => ?_
    by_cases hj : j = (0, 0, 0)
    · rw [if_pos hj, if_pos hj]
    · rw [if_neg hj, if_neg hj, cosfac_perm pos natom charges _ σ hσ,
        sinfac_perm pos natom charges _ σ hσ]

theorem C6_reci_invariance_witness :
    (compute_ewald_reci (fun a e => (fun _ _ => (0:ℝ)) a e + (fun _ => (1:ℝ)) e) 1
          (fun _ => 1) (fun _ _ => 0) 1 1 (fun _ => 1) =
        compute_ewald_reci (fun _ _ => 0) 1 (fun _ => 1) (fun _ _ => 0) 1 1 (fun _ => 1)) ∧
      compute_ewald_reci (fun a => (fun _ _ => (0:ℝ)) ((Equiv.refl ℕ) a)) 1
          (fun a => (fun _ => (1:ℝ)) ((Equiv.refl ℕ) a)) (fun _ _ => 0) 1 1 (fun _ => 1) =
        compute_ewald_reci (fun _ _ => 0) 1 (fun _ => 1) (fun _ _ => 0) 1 1 (fun _ => 1) :=
  C6_reci_invariance (fun _ _ => 0) 1 (fun _ => 1) (fun _ _ => 0) 1 1 (fun _ => 1)
    (fun _ => 1) (Equiv.refl ℕ) (fun _ => Iff.rfl)

/-- C8 counterexample: the precondition α > 0 (its violation is the InvalidParameter error
of the spec) is not checked by compute_ewald_corr; called with α = −1 on a unit charge it
does not fail and simply returns the ordinary self-term value +1/√π. -/
theorem C8_counterexample :
    (compute_ewald_corr (fun _ _ => 0) 0 (fun _ => 1) (fun v => v) (-1) [] none none).energy =
      1 / M_SQRT_PI := by
  rw [compute_ewald_corr, List.foldl_nil]
  show (0:ℝ) - (-1) / M_SQRT_PI * 1 * 1 = 1 / M_SQRT_PI
  ring

/-- C8 amended: the Ewald routines perform no precondition validation and have no error
reporting path at all; a call with α ≤ 0 (or any other argument) runs the ordinary
arithmetic and updates the energy and the gradient and virial buffers by exactly the same
formulas as a valid call. -/
theorem C8_no_validation (pos : ℕ → Fin 3 → ℝ) (center : ℕ) (charges : ℕ → ℝ)
    (mic : (Fin 3 → ℝ) → Fin 3 → ℝ) (alpha : ℝ) (scaling : List scaling_row_type)
    (gpos : Option (ℕ → Fin 3 → ℝ)) (vtens : Option (Fin 3 → Fin 3 → ℝ))
    (h : alpha ≤ 0) :
    ((compute_ewald_corr pos center charges mic alpha scaling gpos vtens).energy =
        0 - alpha / M_SQRT_PI * charges center * charges center +
          (scaling.map (corr_energy_contrib pos center charges mic alpha)).sum) ∧
      ((compute_ewald_corr pos center charges mic alpha scaling gpos vtens).gpos =
        gpos.map fun gp a e =>
          gp a e +
            (scaling.map fun r => corr_gpos_contrib pos center charges mic alpha r a e).sum) ∧
      (compute_ewald_corr pos center charges mic alpha scaling gpos vtens).vtens =
        vtens.map fun vt a b =>
          vt a b +
            (scaling.map fun r => corr_vtens_contrib pos center charges mic alpha r a b).sum := by
  refine ⟨?_, ?_, ?_⟩
  · rw [compute_ewald_corr, corr_foldl_energy]
  · rw [compute_ewald_corr, corr_foldl_gpos]
  · rw [compute_ewald_corr, corr_foldl_vtens]

theorem C8_no_validation_witness :
    (-1 : ℝ) ≤ 0 ∧
      ((compute_ewald_corr (fun _ _ => 0) 0 (fun _ => 1) (fun v => v) (-1) [] none
            none).energy =
          0 - (-1) / M_SQRT_PI * (fun _ : ℕ => (1:ℝ)) 0 * (fun _ : ℕ => (1:ℝ)) 0 +
            (([] : List scaling_row_type).map
              (corr_energy_contrib (fun _ _ => 0) 0 (fun _ => 1) (fun v => v) (-1))).sum) ∧
        ((compute_ewald_corr (fun _ _ => 0) 0 (fun _ => 1) (fun v => v) (-1) [] none
            none).gpos =
          (none : Option (ℕ → Fin 3 → ℝ)).map fun gp a e =>
            gp a e +
              (([] : List scaling_row_type).map fun r =>
                corr_gpos_contrib (fun _ _ => 0) 0 (fun _ => 1) (fun v => v) (-1) r a e).sum) ∧
        (compute_ewald_corr (fun _ _ => 0) 0 (fun _ => 1) (fun v => v) (-1) [] none
            none).vtens =
          (none : Option (Fin 3 → Fin 3 → ℝ)).map fun vt a b =>
            vt a b +
              (([] : List scaling_row_type).map fun r =>
                corr_vtens_contrib (fun _ _ => 0) 0 (fun _ => 1) (fun v => v) (-1) r a b).sum :=
  ⟨neg_nonpos.mpr zero_le_one,
    C8_no_validation (fun _ _ => 0) 0 (fun _ => 1) (fun v => v) (-1) [] none none
      (neg_nonpos.mpr zero_le_one)⟩

theorem hasDerivAt_erf (x : ℝ) :
    HasDerivAt erf (M_TWO_DIV_SQRT_PI * Real.exp (-(x ^ 2))) x := by
  have hc : Continuous fun t : ℝ => Real.exp (-(t ^ 2)) := by
    exact Real.continuous_exp.comp (continuous_pow 2).neg
  have h1 : HasDerivAt (fun u => ∫ t in (0:ℝ)..u, Real.exp (-(t ^ 2)))
      (Real.exp (-(x ^ 2))) x :=
    intervalIntegral.integral_hasDerivAt_right (hc.intervalIntegrable 0 x)
      (hc.stronglyMeasurableAtFilter _ _) hc.continuousAt
  exact h1.const_mul M_TWO_DIV_SQRT_PI

theorem hasDerivAt_list_sum {A : Type} (l : List A) (f : A → ℝ → ℝ) (fd : A → ℝ) (t : ℝ)
    (h : ∀ r ∈ l, HasDerivAt (f r) (fd r) t) :
    HasDerivAt (fun u => (l.map fun r => f r u).sum) ((l.map fd).sum) t := by
  induction l with
  | nil => simpa using hasDerivAt_const t (0:ℝ)
  | cons r tl ih =>
    simp only [List.map_cons, List.sum_cons]
    exact (h r (List.mem_cons_self r tl)).add
      (ih fun s hs => h s (List.mem_cons_of_mem r hs))

theorem updatePos_self (pos : ℕ → Fin 3 → ℝ) (i : ℕ) (d : Fin 3) :
    updatePos pos i d (pos i d) = pos := by
  funext a b
  simp only [updatePos]
  split
  case isTrue h => rw [h.1, h.2]
  case isFalse h => rfl

theorem updatePos_ne (pos : ℕ → Fin 3 → ℝ) (i : ℕ) (d : Fin 3) (u : ℝ) (a : ℕ)
    (h : a ≠ i) (b : Fin 3) : updatePos pos i d u a b = pos a b := by
  simp only [updatePos]
  exact if_neg fun hc => h hc.1

theorem hasDerivAt_dot3_update (k v : Fin 3 → ℝ) (d : Fin 3) (t : ℝ) :
    HasDerivAt (fun u => dot3 k (fun b => if b = d then u else v b)) (k d) t := by
  have hfun : (fun u => dot3 k (fun b => if b = d then u else v b)) =
      fun u => k d * u + dot3 k (fun b => if b = d then 0 else v b) := by
    funext u
    fin_cases d <;> simp [dot3] <;> ring
  rw [hfun]
  simpa using ((hasDerivAt_id t).const_mul (k d)).add_const
    (dot3 k fun b => if b = d then 0 else v b)

/-- Squared length of a 3-vector, matching the expanded products of ewald.c line 95. -/
def sq3 (w : Fin 3 → ℝ) : ℝ := w 0 * w 0 + w 1 * w 1 + w 2 * w 2

/-- Displacement vector whose coordinate d is the affine function m·u + C of the moving
coordinate u and whose other coordinates are frozen at W. -/
def ifd (d : Fin 3) (m C : ℝ) (W : Fin 3 → ℝ) (u : ℝ) : Fin 3 → ℝ :=
  fun e => if e = d then m * u + C else W e

theorem sq3_ifd (d : Fin 3) (m C : ℝ) (W : Fin 3 → ℝ) :
    (fun u => sq3 (ifd d m C W u)) =
      fun u => (m * u + C) * (m * u + C) + (sq3 W - W d * W d) := by
  funext u
  fin_cases d <;> simp [sq3, ifd] <;> ring

theorem hasDerivAt_sq3_ifd (d : Fin 3) (m C : ℝ) (W : Fin 3 → ℝ) (t : ℝ) :
    HasDerivAt (fun u => sq3 (ifd d m C W u)) (2 * m * (m * t + C)) t := by
  rw [sq3_ifd]
  have h1 : HasDerivAt (fun u : ℝ => m * u + C) m t := by
    simpa using ((hasDerivAt_id t).const_mul m).add_const C
  have h2 := (h1.mul h1).add_const (sq3 W - W d * W d)
  convert h2 using 1
  ring

theorem sq3_ifd_at (d : Fin 3) (m C : ℝ) (W : Fin 3 → ℝ) (t : ℝ) (hWt : m * t + C = W d) :
    sq3 (ifd d m C W t) = sq3 W := by
  have h := congrFun (sq3_ifd d m C W) t
  rw [h, hWt]
  ring

theorem hasDerivAt_sqrt_sq3_ifd (d : Fin 3) (m C : ℝ) (W : Fin 3 → ℝ) (t : ℝ)
    (hWt : m * t + C = W d) (hS : Real.sqrt (sq3 W) ≠ 0) :
    HasDerivAt (fun u => Real.sqrt (sq3 (ifd d m C W u))) (m * W d / Real.sqrt (sq3 W)) t := by
  have hQt : sq3 (ifd d m C W t) = sq3 W := sq3_ifd_at d m C W t hWt
  have hS0 : sq3 W ≠ 0 := ne_of_gt (Real.sqrt_ne_zero'.mp hS)
  have hQt0 : sq3 (ifd d m C W t) ≠ 0 := by rw [hQt]; exact hS0
  have h := (Real.hasDerivAt_sqrt hQt0).comp t (hasDerivAt_sq3_ifd d m C W t)
  have h2 : HasDerivAt (fun u => Real.sqrt (sq3 (ifd d m C W u)))
      (1 / (2 * Real.sqrt (sq3 (ifd d m C W t))) * (2 * m * (m * t + C))) t := h
  have h3 : 1 / (2 * Real.sqrt (sq3 (ifd d m C W t))) * (2 * m * (m * t + C)) =
      m * W d / Real.sqrt (sq3 W) := by
    rw [hQt, hWt]
    field_simp
    ring
  rw [h3] at h2
  exact h2

theorem hasDerivAt_pair_core (d : Fin 3) (m C : ℝ) (W : Fin 3 → ℝ) (fac alpha t : ℝ)
    (hWt : m * t + C = W d) (hS : Real.sqrt (sq3 W) ≠ 0) :
    HasDerivAt
      (fun u =>
        -(fac * (erf (alpha * Real.sqrt (sq3 (ifd d m C W u))) /
          Real.sqrt (sq3 (ifd d m C W u)))))
      (m * (W d *
        (-fac *
            (M_TWO_DIV_SQRT_PI * alpha *
                Real.exp (-(alpha * Real.sqrt (sq3 W) * (alpha * Real.sqrt (sq3 W)))) -
              erf (alpha * Real.sqrt (sq3 W)) / Real.sqrt (sq3 W)) /
          Real.sqrt (sq3 W) / Real.sqrt (sq3 W)))) t := by
  have hQt : sq3 (ifd d m C W t) = sq3 W := sq3_ifd_at d m C W t hWt
  have hdt0 : Real.sqrt (sq3 (ifd d m C W t)) ≠ 0 := by rw [hQt]; exact hS
  have hdist := hasDerivAt_sqrt_sq3_ifd d m C W t hWt hS
  have hin : HasDerivAt (fun u => alpha * Real.sqrt (sq3 (ifd d m C W u)))
      (alpha * (m * W d / Real.sqrt (sq3 W))) t := hdist.const_mul alpha
  have herf := hasDerivAt_erf (alpha * Real.sqrt (sq3 (ifd d m C W t)))
  have hcomp : HasDerivAt (fun u => erf (alpha * Real.sqrt (sq3 (ifd d m C W u))))
      (M_TWO_DIV_SQRT_PI * Real.exp (-((alpha * Real.sqrt (sq3 (ifd d m C W t))) ^ 2)) *
        (alpha * (m * W d / Real.sqrt (sq3 W)))) t := herf.comp t hin
  have hdiv := hcomp.div hdist hdt0
  have hfull := (hdiv.const_mul fac).neg
  convert hfull using 1
  rw [hQt]
  have hsq : (alpha * Real.sqrt (sq3 W)) ^ 2 =
      alpha * Real.sqrt (sq3 W) * (alpha * Real.sqrt (sq3 W)) := sq (alpha * Real.sqrt (sq3 W))
  rw [hsq]
  field_simp
  ring

theorem hasDerivAt_cosfac_update (pos : ℕ → Fin 3 → ℝ) (natom : ℕ) (charges : ℕ → ℝ)
    (k : Fin 3 → ℝ) (i : ℕ) (d : Fin 3) (hi : i < natom) :
    HasDerivAt (fun u => cosfac (updatePos pos i d u) natom charges k)
      (charges i * -Real.sin (dot3 k (pos i)) * k d) (pos i d) := by
  have hA : ∀ m ∈ Finset.range natom,
      HasDerivAt (fun u => charges m * Real.cos (dot3 k (updatePos pos i d u m)))
        (if m = i then charges i * -Real.sin (dot3 k (pos i)) * k d else 0)
        (pos i d) := by
    intro m _
    by_cases hmi : m = i
    · subst hmi
      rw [if_pos rfl]
      have hfun : (fun u => charges m * Real.cos (dot3 k (updatePos pos m d u m))) =
          fun u => charges m * Real.cos (dot3 k fun b => if b = d then u else pos m b) := by
        funext u
        have hrow : updatePos pos m d u m = fun b => if b = d then u else pos m b := by
          funext b
          simp [updatePos]
        rw [hrow]
      rw [hfun]
      have hphase := hasDerivAt_dot3_update k (pos m) d (pos m d)
      have hcos : HasDerivAt
          (fun u => Real.cos (dot3 k fun b => if b = d then u else pos m b))
          (-Real.sin (dot3 k fun b => if b = d then pos m d else pos m b) * k d)
          (pos m d) :=
        (Real.hasDerivAt_cos _).comp (pos m d) hphase
      have hpt : (fun b => if b = d then pos m d else pos m b) = pos m := by
        funext b
        by_cases hb : b = d
        · rw [if_pos hb, hb]
        · rw [if_neg hb]
      rw [hpt] at hcos
      have h2 := hcos.const_mul (charges m)
      convert h2 using 1
      ring
    · rw [if_neg hmi]
      have hfun : (fun u => charges m * Real.cos (dot3 k (updatePos pos i d u m))) =
          fun _ => charges m * Real.cos (dot3 k (pos m)) := by
        funext u
        have hrow : updatePos pos i d u m = pos m := by
          funext b
          exact updatePos_ne pos i d u m hmi b
        rw [hrow]
      rw [hfun]
      exact hasDerivAt_const _ _
  have hsum := HasDerivAt.sum hA
  have hval : (∑ m ∈ Finset.range natom,
      if m = i then charges i * -Real.sin (dot3 k (pos i)) * k d else 0) =
      charges i * -Real.sin (dot3 k (pos i)) * k d := by
    rw [Finset.sum_ite_eq' (Finset.range natom) i
      fun _ => charges i * -Real.sin (dot3 k (pos i)) * k d]
    exact if_pos (Finset.mem_range.mpr hi)
  rw [hval] at hsum
  exact hsum

theorem hasDerivAt_sinfac_update (pos : ℕ → Fin 3 → ℝ) (natom : ℕ) (charges : ℕ → ℝ)
    (k : Fin 3 → ℝ) (i : ℕ) (d : Fin 3) (hi : i < natom) :
    HasDerivAt (fun u => sinfac (updatePos pos i d u) natom charges k)
      (charges i * Real.cos (dot3 k (pos i)) * k d) (pos i d) := by
  have hA : ∀ m ∈ Finset.range natom,
      HasDerivAt (fun u => charges m * Real.sin (dot3 k (updatePos pos i d u m)))
        (if m = i then charges i * Real.cos (dot3 k (pos i)) * k d else 0)
        (pos i d) := by
    intro m _
    by_cases hmi : m = i
    · subst hmi
      rw [if_pos rfl]
      have hfun : (fun u => charges m * Real.sin (dot3 k (updatePos pos m d u m))) =
          fun u => charges m * Real.sin (dot3 k fun b => if b = d then u else pos m b) := by
        funext u
        have hrow : updatePos pos m d u m = fun b => if b = d then u else pos m b := by
          funext b
          simp [updatePos]
        rw [hrow]
      rw [hfun]
      have hphase := hasDerivAt_dot3_update k (pos m) d (pos m d)
      have hsin : HasDerivAt
          (fun u => Real.sin (dot3 k fun b => if b = d then u else pos m b))
          (Real.cos (dot3 k fun b => if b = d then pos m d else pos m b) * k d)
          (pos m d) :=
        (Real.hasDerivAt_sin _).comp (pos m d) hphase
      have hpt : (fun b => if b = d then pos m d else pos m b) = pos m := by
        funext b
        by_cases hb : b = d
        · rw [if_pos hb, hb]
        · rw [if_neg hb]
      rw [hpt] at hsin
      have h2 := hsin.const_mul (charges m)
      convert h2 using 1
      ring
    · rw [if_neg hmi]
      have hfun : (fun u => charges m * Real.sin (dot3 k (updatePos pos i d u m))) =
          fun _ => charges m * Real.sin (dot3 k (pos m)) := by
        funext u
        have hrow : updatePos pos i d u m = pos m := by
          funext b
          exact updatePos_ne pos i d u m hmi b
        rw [hrow]
      rw [hfun]
      exact hasDerivAt_const _ _
  have hsum := HasDerivAt.sum hA
  have hval : (∑ m ∈ Finset.range natom,
      if m = i then charges i * Real.cos (dot3 k (pos i)) * k d else 0) =
      charges i * Real.cos (dot3 k (pos i)) * k d := by
    rw [Finset.sum_ite_eq' (Finset.range natom) i
      fun _ => charges i * Real.cos (dot3 k (pos i)) * k d]
    exact if_pos (Finset.mem_range.mpr hi)
  rw [hval] at hsum
  exact hsum

theorem hasDerivAt_reci_term_update (pos : ℕ → Fin 3 → ℝ) (natom : ℕ) (charges : ℕ → ℝ)
    (gvecs : Fin 3 → Fin 3 → ℝ) (volume alpha : ℝ) (i : ℕ) (d : Fin 3) (hi : i < natom)
    (j : ℤ × ℤ × ℤ) :
    HasDerivAt (fun u =>
      if j = (0, 0, 0) then (0:ℝ)
      else
        reciC volume alpha (kvec gvecs j) *
          (cosfac (updatePos pos i d u) natom charges (kvec gvecs j) *
              cosfac (updatePos pos i d u) natom charges (kvec gvecs j) +
            sinfac (updatePos pos i d u) natom charges (kvec gvecs j) *
              sinfac (updatePos pos i d u) natom charges (kvec gvecs j)))
      (reci_gpos_contrib pos natom charges gvecs volume alpha j i d) (pos i d) := by
  by_cases hj : j = (0, 0, 0)
  · simp only [if_pos hj, reci_gpos_contrib]
    exact hasDerivAt_const _ _
  · simp only [if_neg hj, reci_gpos_contrib]
    have hc := hasDerivAt_cosfac_update pos natom charges (kvec gvecs j) i d hi
    have hs := hasDerivAt_sinfac_update pos natom charges (kvec gvecs j) i d hi
    have h := ((hc.mul hc).add (hs.mul hs)).const_mul (reciC volume alpha (kvec gvecs j))
    convert h using 1
    rw [updatePos_self]
    ring

theorem corr_delta_mic_shift (pos : ℕ → Fin 3 → ℝ) (center other : ℕ)
    (mic : (Fin 3 → ℝ) → Fin 3 → ℝ) (L : Fin 3 → ℝ) (hmic : ∀ v e, mic v e = v e + L e)
    (e : Fin 3) :
    corr_delta pos center other mic e = pos center e - pos other e + L e := by
  rw [corr_delta]
  simp only [hmic]

theorem updatePos_row (pos : ℕ → Fin 3 → ℝ) (i : ℕ) (d : Fin 3) (u : ℝ) (e : Fin 3) :
    updatePos pos i d u i e = if e = d then u else pos i e := by
  simp only [updatePos]
  by_cases hed : e = d
  · simp [hed]
  · simp [hed]

theorem corr_delta_update_center (pos : ℕ → Fin 3 → ℝ) (center other : ℕ) (d : Fin 3)
    (u : ℝ) (mic : (Fin 3 → ℝ) → Fin 3 → ℝ) (L : Fin 3 → ℝ)
    (hmic : ∀ v e, mic v e = v e + L e) (hoc : other ≠ center) (e : Fin 3) :
    corr_delta (updatePos pos center d u) center other mic e =
      ifd d 1 (L d - pos other d) (corr_delta pos center other mic) u e := by
  rw [corr_delta]
  simp only [hmic, ifd]
  rw [updatePos_row pos center d u e, updatePos_ne pos center d u other hoc e]
  by_cases hed : e = d
  · rw [if_pos hed, if_pos hed]
    subst hed
    ring
  · rw [if_neg hed, if_neg hed, corr_delta_mic_shift pos center other mic L hmic e]

theorem corr_delta_update_other (pos : ℕ → Fin 3 → ℝ) (center other : ℕ) (d : Fin 3)
    (u : ℝ) (mic : (Fin 3 → ℝ) → Fin 3 → ℝ) (L : Fin 3 → ℝ)
    (hmic : ∀ v e, mic v e = v e + L e) (hoc : other ≠ center) (e : Fin 3) :
    corr_delta (updatePos pos other d u) center other mic e =
      ifd d (-1) (pos center d + L d) (corr_delta pos center other mic) u e := by
  rw [corr_delta]
  simp only [hmic, ifd]
  rw [updatePos_ne pos other d u center (fun hc => hoc hc.symm) e,
    updatePos_row pos other d u e]
  by_cases hed : e = d
  · rw [if_pos hed, if_pos hed]
    subst hed
    ring
  · rw [if_neg hed, if_neg hed, corr_delta_mic_shift pos center other mic L hmic e]

theorem corr_delta_update_untouched (pos : ℕ → Fin 3 → ℝ) (center other a : ℕ) (d : Fin 3)
    (u : ℝ) (mic : (Fin 3 → ℝ) → Fin 3 → ℝ) (hac : a ≠ center) (hao : a ≠ other)
    (e : Fin 3) :
    corr_delta (updatePos pos a d u) center other mic e =
      corr_delta pos center other mic e := by
  rw [corr_delta, corr_delta]
  have hv : (fun b => updatePos pos a d u center b - updatePos pos a d u other b) =
      fun b => pos center b - pos other b := by
    funext b
    rw [updatePos_ne pos a d u center (fun hc => hac hc.symm) b,
      updatePos_ne pos a d u other (fun hc => hao hc.symm) b]
  rw [hv]

theorem corr_d_update_center (pos : ℕ → Fin 3 → ℝ) (center other : ℕ) (d : Fin 3)
    (u : ℝ) (mic : (Fin 3 → ℝ) → Fin 3 → ℝ) (L : Fin 3 → ℝ)
    (hmic : ∀ v e, mic v e = v e + L e) (hoc : other ≠ center) :
    corr_d (updatePos pos center d u) center other mic =
      Real.sqrt (sq3 (ifd d 1 (L d - pos other d) (corr_delta pos center other mic) u)) := by
  rw [corr_d]
  simp only [corr_delta_update_center pos center other d u mic L hmic hoc, sq3]

theorem corr_d_update_other (pos : ℕ → Fin 3 → ℝ) (center other : ℕ) (d : Fin 3)
    (u : ℝ) (mic : (Fin 3 → ℝ) → Fin 3 → ℝ) (L : Fin 3 → ℝ)
    (hmic : ∀ v e, mic v e = v e + L e) (hoc : other ≠ center) :
    corr_d (updatePos pos other d u) center other mic =
      Real.sqrt (sq3 (ifd d (-1) (pos center d + L d) (corr_delta pos center other mic) u)) := by
  rw [corr_d]
  simp only [corr_delta_update_other pos center other d u mic L hmic hoc, sq3]

theorem hasDerivAt_corr_contrib_update (pos : ℕ → Fin 3 → ℝ) (center : ℕ) (charges : ℕ → ℝ)
    (mic : (Fin 3 → ℝ) → Fin 3 → ℝ) (L : Fin 3 → ℝ) (alpha : ℝ) (d : Fin 3) (a : ℕ)
    (r : scaling_row_type) (hmic : ∀ v e, mic v e = v e + L e)
    (hd : r.i < center → corr_d pos center r.i mic ≠ 0) :
    HasDerivAt (fun u => corr_energy_contrib (updatePos pos a d u) center charges mic alpha r)
      (corr_gpos_contrib pos center charges mic alpha r a d) (pos a d) := by
  by_cases hle : center ≤ r.i
  · have hfun : (fun u =>
        corr_energy_contrib (updatePos pos a d u) center charges mic alpha r) =
        fun _ => (0:ℝ) := by
      funext u
      rw [corr_energy_contrib, if_pos hle]
    rw [hfun, corr_gpos_contrib, if_pos hle]
    exact hasDerivAt_const _ _
  · have hlt : r.i < center := not_le.mp hle
    have hne : r.i ≠ center := ne_of_lt hlt
    have hS : Real.sqrt (sq3 (corr_delta pos center r.i mic)) ≠ 0 := hd hlt
    by_cases hac : a = center
    · rw [hac]
      have hfun : (fun u =>
          corr_energy_contrib (updatePos pos center d u) center charges mic alpha r) =
          fun u =>
            -(corr_fac charges center r.i r.scale *
              (erf (alpha * Real.sqrt
                  (sq3 (ifd d 1 (L d - pos r.i d) (corr_delta pos center r.i mic) u))) /
                Real.sqrt
                  (sq3 (ifd d 1 (L d - pos r.i d) (corr_delta pos center r.i mic) u)))) := by
        funext u
        rw [corr_energy_contrib, if_neg hle, corr_pot,
          corr_d_update_center pos center r.i d u mic L hmic hne]
      rw [hfun]
      have hWt : 1 * pos center d + (L d - pos r.i d) = corr_delta pos center r.i mic d := by
        rw [corr_delta_mic_shift pos center r.i mic L hmic d]
        ring
      have hcore := hasDerivAt_pair_core d 1 (L d - pos r.i d) (corr_delta pos center r.i mic)
        (corr_fac charges center r.i r.scale) alpha (pos center d) hWt hS
      rw [corr_gpos_contrib, if_neg hle, if_pos rfl]
      convert hcore using 1
      rw [one_mul]
      rfl
    · by_cases har : a = r.i
      · rw [har]
        have hfun : (fun u =>
            corr_energy_contrib (updatePos pos r.i d u) center charges mic alpha r) =
            fun u =>
              -(corr_fac charges center r.i r.scale *
                (erf (alpha * Real.sqrt
                    (sq3 (ifd d (-1) (pos center d + L d) (corr_delta pos center r.i mic) u))) /
                  Real.sqrt
                    (sq3 (ifd d (-1) (pos center d + L d) (corr_delta pos center r.i mic) u)))) := by
          funext u
          rw [corr_energy_contrib, if_neg hle, corr_pot,
            corr_d_update_other pos center r.i d u mic L hmic hne]
        rw [hfun]
        have hWt : (-1) * pos r.i d + (pos center d + L d) =
            corr_delta pos center r.i mic d := by
          rw [corr_delta_mic_shift pos center r.i mic L hmic d]
          ring
        have hcore := hasDerivAt_pair_core d (-1) (pos center d + L d)
          (corr_delta pos center r.i mic) (corr_fac charges center r.i r.scale) alpha
          (pos r.i d) hWt hS
        rw [corr_gpos_contrib, if_neg hle, if_neg hne, if_pos rfl]
        convert hcore using 1
        rw [neg_one_mul]
        rfl
      · have hfun : (fun u =>
            corr_energy_contrib (updatePos pos a d u) center charges mic alpha r) =
            fun _ => corr_energy_contrib pos center charges mic alpha r := by
          funext u
          rw [corr_energy_contrib, corr_energy_contrib, if_neg hle, if_neg hle,
            corr_pot, corr_pot]
          have hcd : corr_d (updatePos pos a d u) center r.i mic =
              corr_d pos center r.i mic := by
            rw [corr_d, corr_d]
            simp only [corr_delta_update_untouched pos center r.i a d u mic hac har]
          rw [hcd]
        rw [hfun, corr_gpos_contrib, if_neg hle, if_neg hac, if_neg har]
        exact hasDerivAt_const _ _

/-- C3: the gradient compute_ewald_reci accumulates into entry (i, d) of the caller's
buffer is the derivative of the returned energy with respect to coordinate d of atom i
(positions entering only through the plane-wave phases), and the gradient
compute_ewald_corr accumulates into entry (a, d) is the derivative of its returned energy
with respect to coordinate d of atom a, with the minimum-image displacement locally an
affine (lattice-shift) function of the positions (mic v = v + L) and all contributing
pair distances nonzero. -/
theorem C3_gradient_consistency (pos : ℕ → Fin 3 → ℝ) (natom : ℕ) (charges : ℕ → ℝ)
    (gvecs : Fin 3 → Fin 3 → ℝ) (volume alpha : ℝ) (gmax : Fin 3 → ℕ)
    (gp gp2 : ℕ → Fin 3 → ℝ) (i : ℕ) (d : Fin 3) (center a : ℕ)
    (mic : (Fin 3 → ℝ) → Fin 3 → ℝ) (L : Fin 3 → ℝ) (scaling : List scaling_row_type)
    (vt : Option (Fin 3 → Fin 3 → ℝ)) (hi : i < natom)
    (hmic : ∀ v e, mic v e = v e + L e)
    (hd : ∀ r ∈ scaling, r.i < center → corr_d pos center r.i mic ≠ 0) :
    (HasDerivAt
        (fun u =>
          compute_ewald_reci (updatePos pos i d u) natom charges gvecs volume alpha gmax)
        (compute_ewald_reci_gpos pos natom charges gvecs volume alpha gmax gp i d - gp i d)
        (pos i d)) ∧
      (compute_ewald_reci_gpos pos natom charges gvecs volume alpha gmax gp i d =
        gp i d + ∑ j ∈ ewaldTriples gmax,
          reci_gpos_contrib pos natom charges gvecs volume alpha j i d) ∧
      (HasDerivAt
        (fun u => (compute_ewald_corr (updatePos pos a d u) center charges mic alpha
          scaling (some gp2) vt).energy)
        ((scaling.map fun r => corr_gpos_contrib pos center charges mic alpha r a d).sum)
        (pos a d)) ∧
      (compute_ewald_corr pos center charges mic alpha scaling (some gp2) vt).gpos =
        some fun b e => gp2 b e +
          (scaling.map fun r => corr_gpos_contrib pos center charges mic alpha r b e).sum := by
  refine ⟨?_, ?_, ?_, ?_⟩
  · have hsum := HasDerivAt.sum
      (fun j (_ : j ∈ ewaldTriples gmax) =>
        hasDerivAt_reci_term_update pos natom charges gvecs volume alpha i d hi j)
    have hval : compute_ewald_reci_gpos pos natom charges gvecs volume alpha gmax gp i d -
        gp i d =
        ∑ j ∈ ewaldTriples gmax,
          reci_gpos_contrib pos natom charges gvecs volume alpha j i d := by
      rw [compute_ewald_reci_gpos, if_pos hi]
      ring
    rw [hval]
    exact hsum
  · rw [compute_ewald_reci_gpos, if_pos hi]
  · have hrows : ∀ r ∈ scaling,
        HasDerivAt
          (fun u => corr_energy_contrib (updatePos pos a d u) center charges mic alpha r)
          (corr_gpos_contrib pos center charges mic alpha r a d) (pos a d) :=
      fun r hr =>
        hasDerivAt_corr_contrib_update pos center charges mic L alpha d a r hmic (hd r hr)
    have hsum := hasDerivAt_list_sum scaling
      (fun r u => corr_energy_contrib (updatePos pos a d u) center charges mic alpha r)
      (fun r => corr_gpos_contrib pos center charges mic alpha r a d) (pos a d) hrows
    have hconst := hsum.const_add (0 - alpha / M_SQRT_PI * charges center * charges center)
    have hfun : (fun u => (compute_ewald_corr (updatePos pos a d u) center charges mic alpha
        scaling (some gp2) vt).energy) =
        fun u => 0 - alpha / M_SQRT_PI * charges center * charges center +
          (scaling.map fun r =>
            corr_energy_contrib (updatePos pos a d u) center charges mic alpha r).sum := by
      funext u
      rw [compute_ewald_corr, corr_foldl_energy]
    rw [hfun]
    exact hconst
  · rw [compute_ewald_corr, corr_foldl_gpos]
    rfl

theorem C3_gradient_consistency_witness :
    0 < 1 ∧ (∀ (v : Fin 3 → ℝ) (e : Fin 3), (fun w => w) v e = v e + (fun _ => (0:ℝ)) e) ∧
      (∀ r ∈ ([] : List scaling_row_type), r.i < 0 →
        corr_d (fun _ _ => 0) 0 r.i (fun w => w) ≠ 0) ∧
      ((HasDerivAt
          (fun u =>
            compute_ewald_reci (updatePos (fun _ _ => 0) 0 0 u) 1 (fun _ => 1)
              (fun _ _ => 0) 1 1 (fun _ => 0))
          (compute_ewald_reci_gpos (fun _ _ => 0) 1 (fun _ => 1) (fun _ _ => 0) 1 1
              (fun _ => 0) (fun _ _ => 0) 0 0 - (fun _ _ => (0:ℝ)) 0 0)
          ((fun _ _ => (0:ℝ)) 0 0)) ∧
        (compute_ewald_reci_gpos (fun _ _ => 0) 1 (fun _ => 1) (fun _ _ => 0) 1 1
            (fun _ => 0) (fun _ _ => 0) 0 0 =
          (fun _ _ => (0:ℝ)) 0 0 + ∑ j ∈ ewaldTriples fun _ => 0,
            reci_gpos_contrib (fun _ _ => 0) 1 (fun _ => 1) (fun _ _ => 0) 1 1 j 0 0) ∧
        (HasDerivAt
          (fun u => (compute_ewald_corr (updatePos (fun _ _ => 0) 0 0 u) 0 (fun _ => 1)
            (fun w => w) 1 [] (some fun _ _ => 0) none).energy)
          ((([] : List scaling_row_type).map fun r =>
            corr_gpos_contrib (fun _ _ => 0) 0 (fun _ => 1) (fun w => w) 1 r 0 0).sum)
          ((fun _ _ => (0:ℝ)) 0 0)) ∧
        (compute_ewald_corr (fun _ _ => 0) 0 (fun _ => 1) (fun w => w) 1 []
            (some fun _ _ => 0) none).gpos =
          some fun b e => (fun _ _ => (0:ℝ)) b e +
            (([] : List scaling_row_type).map fun r =>
              corr_gpos_contrib (fun _ _ => 0) 0 (fun _ => 1) (fun w => w) 1 r b e).sum) :=
  ⟨by decide, by simp, by simp,
    C3_gradient_consistency (fun _ _ => 0) 1 (fun _ => 1) (fun _ _ => 0) 1 1 (fun _ => 0)
      (fun _ _ => 0) (fun _ _ => 0) 0 0 0 0 (fun w => w) (fun _ => 0) [] none
      (by decide) (by simp) (by simp)⟩

end

end Yaff
